import Mathlib

/-
Verification development for the scallop-docs repository.

The repository's Rust sources under src/examples/rust drive a Datalog-style
deductive engine (scallop_core) with pluggable provenance semantics.  The
engine itself is an external crate: only its callers, the nine example
programs, are part of this repository.  Definitions below therefore come in
two kinds: direct shallow embeddings of functions that appear in the example
sources (IntAbs::execute, Range::evaluate, ...), and models of the engine
built from the specification's words, each marked "Modelled from the spec".
Machine integers are modelled as Int with explicit range bounds; Rust panics
and fallible operations are modelled with Option; probabilities are exact
rationals.
-/

namespace ScallopModel

/-- Scalar values, embedding the variants of scallop_core::common::value::Value
that the example sources exercise: I32 (32-bit signed, modelled as Int with
explicit bounds), USize (modelled as Nat), String and Char. -/
inductive Value where
  | I32 : Int → Value
  | USize : Nat → Value
  | Str : String → Value
  | Ch : Char → Value
deriving DecidableEq

/-- Smallest value of the Rust i32 type. -/
def i32Min : Int := -(2 ^ 31)

/-- One past the largest value of the Rust i32 type. -/
def i32MaxSucc : Int := 2 ^ 31

/-- Rust i32::abs with its overflow behaviour: at i32::MIN the absolute value
is not representable and the operation overflows (a panic in debug builds),
modelled as none; otherwise the mathematical absolute value. -/
def checkedI32Abs (n : Int) : Option Int :=
  if n = i32Min then none else some |n|

/-- Embedding of IntAbs::execute from
src/examples/rust/foreign_functions/src/main.rs lines 99 to 105.  The Rust
body indexes args[0] (a panic on an empty vector, modelled by the outer none),
pattern-matches for Value::I32, returns Some(n.abs()) in that branch and None
otherwise.  The outer Option models panics; the inner Option is the foreign
function's own optional result. -/
def IntAbs.execute (args : List Value) : Option (Option Value) :=
  match args with
  | [] => none
  | Value.I32 n :: _ => (checkedI32Abs n).map (fun m => some (Value.I32 m))
  | _ :: _ => some none

/-- Dynamic input tags attached to foreign-predicate results, embedding
scallop_core::common::input_tag::DynamicInputTag; the examples only use the
None variant, a probability-carrying variant is kept for fidelity. -/
inductive DynTag where
  | noneTag : DynTag
  | probTag : ℚ → DynTag
deriving DecidableEq

/-- Embedding of Range::evaluate from
src/examples/rust/foreign_predicates/src/main.rs lines 39 to 50: the bounded
slice is indexed at 0 (outer none models the panic on an empty slice); for
Value::I32(n) the result enumerates (DynamicInputTag::None, vec![i]) for i in
0..n; any other variant yields the empty result vector. -/
def Range.evaluate (bounded : List Value) : Option (List (DynTag × List Value)) :=
  match bounded with
  | [] => none
  | Value.I32 n :: _ =>
      some ((List.range n.toNat).map (fun (i : ℕ) => (DynTag.noneTag, [Value.I32 (i : Int)])))
  | _ :: _ => some []

/-- Modelled from the spec: the provenance capability set of section 4.2
(zero, one, combine_add for alternative derivations, combine_mult for
conjunctions); the provenance implementations live in the external engine
crate, not under src/. -/
structure Prov (Tag : Type) where
  zero : Tag
  one : Tag
  combine_add : Tag → Tag → Tag
  combine_mult : Tag → Tag → Tag

/-- Modelled from the spec: Unit provenance, boolean presence with one = true,
zero = false, add = OR, mult = AND (classical Datalog). -/
def unitProv : Prov Bool := ⟨false, true, or, and⟩

/-- Modelled from the spec: MinMaxProbability provenance, a probability tag
with add = max (best alternative wins) and mult = min (weakest link);
probabilities are exact rationals. -/
def minMaxProv : Prov ℚ := ⟨0, 1, max, min⟩

/-- Modelled from the spec: fact-store insert of section 4.4.  If the tuple
key is already present its tag is replaced by combine_add(existing, new);
otherwise the fact is appended fresh.  The store is an association list keyed
by tuple. -/
def insertFact {κ Tag : Type} [DecidableEq κ] (P : Prov Tag) :
    List (κ × Tag) → κ → Tag → List (κ × Tag)
  | [], t, a => [(t, a)]
  | (u, c) :: rest, t, a =>
      if u = t then (u, P.combine_add c a) :: rest
      else (u, c) :: insertFact P rest t a

/-- Number of store entries whose tuple key equals t. -/
def keyCount {κ Tag : Type} [DecidableEq κ] (s : List (κ × Tag)) (t : κ) : Nat :=
  (s.filter (fun e => e.1 = t)).length

/-- Modelled from the spec: the stdlib foreign function string_length used by
src/examples/rust/test_stdlib_ff/src/main.rs, a pure mapping from a string
value to its length (None on a non-string argument, the filter branch). -/
def string_length : Value → Option Value
  | Value.Str s => some (Value.USize s.length)
  | _ => none

/-- Modelled from the spec: evaluation of a rule body of the shape
result(w, dollar-f(w)) = words(w).  Each candidate binding w is extended with
the foreign function's value when it returns one; a binding on which the
function returns no value is discarded from the candidate result set. -/
def applyFF (f : Value → Option Value) (facts : List Value) : List (Value × Value) :=
  facts.filterMap (fun w => (f w).map (fun v => (w, v)))

/-- Modelled from the spec: foreign-predicate call-site fan-out of section
4.5; each (tag, free-argument-tuple) result returned by the predicate becomes
one join candidate carrying combine_mult(incoming_tag, result_tag). -/
def fanOut {Tag : Type} (P : Prov Tag) (fromDyn : DynTag → Tag) (t : Tag)
    (rs : List (DynTag × List Value)) : List (Tag × List Value) :=
  rs.map (fun r => (P.combine_mult t (fromDyn r.1), r.2))

/-- Static value types used in foreign registrations and call sites. -/
inductive ValueType where
  | I32T : ValueType
  | USizeT : ValueType
  | StrT : ValueType
  | CharT : ValueType
deriving DecidableEq

/-- A foreign-function registration's static signature: per-position argument
types (the arity is their count) and a return type. -/
structure FFSig where
  argTypes : List ValueType
  retType : ValueType
deriving DecidableEq

/-- A rule's static foreign call site: the referenced name and the statically
known argument types at the call. -/
structure FFCall where
  name : String
  callTypes : List ValueType
deriving DecidableEq

/-- Modelled from the spec: the structured compile-time errors of section 4.5
for foreign references (unregistered name, arity mismatch, type mismatch). -/
inductive CompileError where
  | unresolvedName : String → CompileError
  | arityMismatch : String → CompileError
  | typeMismatch : String → CompileError
deriving DecidableEq

/-- Modelled from the spec: static check of one foreign call site against the
registry, performed before evaluation. -/
def checkCall (reg : List (String × FFSig)) (c : FFCall) : Except CompileError Unit :=
  match List.lookup c.name reg with
  | none => Except.error (CompileError.unresolvedName c.name)
  | some sig =>
      if c.callTypes.length ≠ sig.argTypes.length then
        Except.error (CompileError.arityMismatch c.name)
      else if c.callTypes ≠ sig.argTypes then
        Except.error (CompileError.typeMismatch c.name)
      else Except.ok ()

/-- Modelled from the spec: program compilation checks every foreign call
site of every rule; the first failing site aborts compilation. -/
def compileCalls (reg : List (String × FFSig)) : List FFCall → Except CompileError Unit
  | [] => Except.ok ()
  | c :: rest =>
      match checkCall reg c with
      | Except.error e => Except.error e
      | Except.ok _ => compileCalls reg rest

/-- Modelled from the spec: a run first compiles the program's foreign call
sites and only on success invokes the evaluator (the thunk), so a fatal
structured error is surfaced before any evaluation round runs. -/
def runChecked {Out : Type} (reg : List (String × FFSig)) (calls : List FFCall)
    (evalRun : Unit → Out) : Except CompileError Out :=
  match compileCalls reg calls with
  | Except.error e => Except.error e
  | Except.ok _ => Except.ok (evalRun ())

/-- A call site is bad when its name is unregistered, or its arity or static
argument types disagree with the registration. -/
def badCall (reg : List (String × FFSig)) (c : FFCall) : Prop :=
  List.lookup c.name reg = none ∨
    ∃ sig, List.lookup c.name reg = some sig ∧
      (c.callTypes.length ≠ sig.argTypes.length ∨ c.callTypes ≠ sig.argTypes)

/- Helper lemmas for the fact store and the compile checker. -/

theorem insertFact_twice {κ Tag : Type} [DecidableEq κ] (P : Prov Tag)
    (hassoc : ∀ x y z : Tag, P.combine_add (P.combine_add x y) z =
      P.combine_add x (P.combine_add y z))
    (s : List (κ × Tag)) (t : κ) (a b : Tag) :
    insertFact P (insertFact P s t a) t b = insertFact P s t (P.combine_add a b) := by
  induction s with
  | nil => simp [insertFact]
  | cons e rest ih =>
      obtain ⟨u, c⟩ := e
      by_cases h : u = t
      · subst h
        simp [insertFact, hassoc]
      · simp [insertFact, h, ih]

theorem keyCount_insertFact {κ Tag : Type} [DecidableEq κ] (P : Prov Tag)
    (s : List (κ × Tag)) (t : κ) (a : Tag) (hnd : (s.map Prod.fst).Nodup) :
    keyCount (insertFact P s t a) t = 1 := by
  induction s with
  | nil => simp [insertFact, keyCount]
  | cons e rest ih =>
      obtain ⟨u, c⟩ := e
      simp only [List.map_cons, List.nodup_cons] at hnd
      by_cases h : u = t
      · subst h
        have hz : keyCount rest u = 0 := by
          have : rest.filter (fun e => e.1 = u) = [] := by
            refine List.filter_eq_nil_iff.mpr ?_
            intro e he
            simp only [decide_eq_true_eq]
            intro hc
            exact hnd.1 (hc ▸ List.mem_map_of_mem Prod.fst he)
          simp [keyCount, this]
        simp only [insertFact, if_pos rfl]
        simp only [keyCount, List.filter_cons] at hz ⊢
        simp [hz]
      · have := ih hnd.2
        simp only [insertFact, if_neg h]
        simp only [keyCount, List.filter_cons] at this ⊢
        simp [h, this]

theorem checkCall_error_of_bad (reg : List (String × FFSig)) (c : FFCall)
    (hb : badCall reg c) : ∃ e, checkCall reg c = Except.error e := by
  rcases hb with h | ⟨sig, hsig, hbad⟩
  · exact ⟨CompileError.unresolvedName c.name, by simp [checkCall, h]⟩
  · rcases hbad with har | hty
    · exact ⟨CompileError.arityMismatch c.name, by simp [checkCall, hsig, har]⟩
    · by_cases har : c.callTypes.length = sig.argTypes.length
      · exact ⟨CompileError.typeMismatch c.name, by simp [checkCall, hsig, har, hty]⟩
      · exact ⟨CompileError.arityMismatch c.name, by simp [checkCall, hsig, har]⟩

theorem compileCalls_error_of_bad (reg : List (String × FFSig))
    (calls : List FFCall) (c : FFCall) (hc : c ∈ calls) (hb : badCall reg c) :
    ∃ e, compileCalls reg calls = Except.error e := by
  induction calls with
  | nil => cases hc
  | cons d rest ih =>
      rcases List.mem_cons.mp hc with h | h
      · subst h
        obtain ⟨e, he⟩ := checkCall_error_of_bad reg c hb
        exact ⟨e, by simp [compileCalls, he]⟩
      · cases hck : checkCall reg d with
        | error e => exact ⟨e, by simp [compileCalls, hck]⟩
        | ok u =>
            obtain ⟨e, he⟩ := ih h
            exact ⟨e, by simp [compileCalls, hck, he]⟩

/-- C10 counterexample: at n = i32::MIN, Rust's n.abs() overflows (a panic in
debug builds), so IntAbs::execute does not return Some(Value::I32(n.abs()));
the claim that execute is total and never panics, including at i32::MIN, fails
at this input. -/
theorem int_abs_min_overflow_cex :
    IntAbs.execute [Value.I32 (-(2 ^ 31))] = none := rfl

/-- C10 (amended): IntAbs::execute is panic-free on every in-range i32 first
argument except i32::MIN, where it returns Some(Value::I32 of the absolute
value); on any other first-element variant it returns None (the filter
branch); at n = i32::MIN the absolute-value computation overflows. -/
theorem int_abs_execute_amended :
    (∀ (n : Int) (rest : List Value), i32Min ≤ n → n < i32MaxSucc → n ≠ i32Min →
      IntAbs.execute (Value.I32 n :: rest) = some (some (Value.I32 |n|))) ∧
    (∀ (v : Value) (rest : List Value), (∀ n, v ≠ Value.I32 n) →
      IntAbs.execute (v :: rest) = some none) ∧
    IntAbs.execute [Value.I32 i32Min] = none := by
  refine ⟨?_, ?_, rfl⟩
  · intro n rest _ _ hne
    simp [IntAbs.execute, checkedI32Abs, hne]
  · intro v rest hv
    cases v with
    | I32 n => exact absurd rfl (hv n)
    | USize m => rfl
    | Str s => rfl
    | Ch c => rfl

theorem int_abs_execute_amended_witness :
    IntAbs.execute [Value.I32 (-5)] = some (some (Value.I32 5)) ∧
    IntAbs.execute [Value.Str "x"] = some none := by
  constructor
  · have h := int_abs_execute_amended.1 (-5) [] (by decide) (by decide) (by decide)
    simpa using h
  · exact int_abs_execute_amended.2.1 (Value.Str "x") []
      (fun n h => Value.noConfusion h)

/-- C7: a foreign-predicate call site supplies the bounded leading arguments
and receives one join candidate per returned (tag, free-argument-tuple)
result; Range (arity 2, first argument bounded) evaluated at bounded value 3
returns exactly the free-argument results 0, 1, 2, and in general i is a free
result for bounded n exactly when 0 <= i < n. -/
theorem range_bounded_fanout :
    Range.evaluate [Value.I32 3] =
      some [(DynTag.noneTag, [Value.I32 0]), (DynTag.noneTag, [Value.I32 1]),
        (DynTag.noneTag, [Value.I32 2])] ∧
    (∀ n i : Int,
      ((DynTag.noneTag, [Value.I32 i]) ∈ (Range.evaluate [Value.I32 n]).getD []) ↔
        0 ≤ i ∧ i < n) ∧
    (∀ {Tag : Type} (P : Prov Tag) (fd : DynTag → Tag) (t : Tag)
      (rs : List (DynTag × List Value)), (fanOut P fd t rs).length = rs.length) := by
  refine ⟨rfl, ?_, ?_⟩
  · intro n i
    simp only [Range.evaluate, Option.getD_some]
    constructor
    · intro h
      obtain ⟨j, hj, hji⟩ := List.mem_map.mp h
      have hj' : j < n.toNat := List.mem_range.mp hj
      have h2 : [Value.I32 (j : Int)] = [Value.I32 i] := congrArg Prod.snd hji
      injection h2 with h5 h6
      injection h5 with h3
      omega
    · rintro ⟨h0, hn⟩
      refine List.mem_map.mpr ⟨i.toNat, List.mem_range.mpr ?_, ?_⟩
      · omega
      · have h4 : ((i.toNat : ℕ) : Int) = i := by omega
        rw [h4]
  · intro Tag P fd t rs
    simp [fanOut]

/-- C6: a foreign function returning no value for a candidate binding causes
exactly that binding to be discarded (filter semantics, no abort): membership
in the evaluated output characterises exactly the bindings on which the
function succeeds, a binding with no value contributes nothing, and the
string_length example over words hello and world yields exactly
(hello, 5) and (world, 5). -/
theorem foreign_function_filter :
    (∀ (f : Value → Option Value) (facts : List Value) (w v : Value),
      (w, v) ∈ applyFF f facts ↔ w ∈ facts ∧ f w = some v) ∧
    (∀ (f : Value → Option Value) (facts : List Value) (w : Value),
      f w = none → ∀ v, (w, v) ∉ applyFF f facts) ∧
    applyFF string_length [Value.Str "hello", Value.Str "world"] =
      [(Value.Str "hello", Value.USize 5), (Value.Str "world", Value.USize 5)] := by
  have hmem : ∀ (f : Value → Option Value) (facts : List Value) (w v : Value),
      (w, v) ∈ applyFF f facts ↔ w ∈ facts ∧ f w = some v := by
    intro f facts w v
    simp only [applyFF, List.mem_filterMap, Option.map_eq_some']
    constructor
    · rintro ⟨a, ha, b, hb, hba⟩
      have h1 : a = w := congrArg Prod.fst hba
      have h2 : b = v := congrArg Prod.snd hba
      subst h1
      subst h2
      exact ⟨ha, hb⟩
    · rintro ⟨hw, hv⟩
      exact ⟨w, hw, v, hv, rfl⟩
  refine ⟨hmem, ?_, rfl⟩
  intro f facts w hnone v hmem'
  have := (hmem f facts w v).mp hmem'
  rw [hnone] at this
  exact Option.noConfusion this.2

theorem foreign_function_filter_witness :
    (Value.Str "a", Value.USize 0) ∉
      applyFF (fun _ => none) [Value.Str "a"] :=
  foreign_function_filter.2.1 (fun _ => none) [Value.Str "a"] (Value.Str "a")
    rfl (Value.USize 0)

/-- C9: a rule referencing a foreign name with no matching registration, or
whose arity or static call-site types mismatch the registration, makes the
whole run surface a fatal structured error from compilation, before any
evaluation round runs; the result is an error regardless of the evaluator. -/
theorem compile_time_foreign_errors
    (reg : List (String × FFSig)) (calls : List FFCall) (c : FFCall)
    (hc : c ∈ calls) (hb : badCall reg c) {Out : Type} (evalRun : Unit → Out) :
    ∃ e, runChecked reg calls evalRun = Except.error e := by
  obtain ⟨e, he⟩ := compileCalls_error_of_bad reg calls c hc hb
  exact ⟨e, by simp [runChecked, he]⟩

theorem compile_time_foreign_errors_witness :
    ∃ e, runChecked ([] : List (String × FFSig))
      [FFCall.mk "string_length" [ValueType.StrT]] (fun _ => (0 : Nat)) =
        Except.error e :=
  compile_time_foreign_errors [] _ _ (List.mem_singleton.mpr rfl)
    (Or.inl rfl) _

/-- C4: inserting a tuple twice with tags a then b leaves the store exactly as
one insert with combine_add(a, b) (for the associative combine_add the spec
requires), and the tuple key then occurs exactly once in the store: the dedup
key is tuple identity, not (tag, tuple) identity. -/
theorem store_dedup_merge {κ Tag : Type} [DecidableEq κ] (P : Prov Tag)
    (hassoc : ∀ x y z : Tag, P.combine_add (P.combine_add x y) z =
      P.combine_add x (P.combine_add y z))
    (s : List (κ × Tag)) (t : κ) (a b : Tag) :
    insertFact P (insertFact P s t a) t b = insertFact P s t (P.combine_add a b) ∧
    ((s.map Prod.fst).Nodup → keyCount (insertFact P s t a) t = 1) :=
  ⟨insertFact_twice P hassoc s t a b, keyCount_insertFact P s t a⟩

theorem store_dedup_merge_witness :
    insertFact unitProv
        (insertFact unitProv ([(3, true)] : List (Nat × Bool)) 7 true) 7 false =
      insertFact unitProv ([(3, true)] : List (Nat × Bool)) 7
        (unitProv.combine_add true false) ∧
    keyCount (insertFact unitProv ([(3, true)] : List (Nat × Bool)) 7 true) 7 = 1 := by
  have h := store_dedup_merge unitProv (by decide) [(3, true)] 7 true false
  exact ⟨h.1, h.2 (by decide)⟩

/- Top-k selection: the TopKProofs strategy retains the best K proofs under a
strict total ranking order.  topSel keeps the elements of S that have fewer
than k strictly better competitors in S. -/

/-- Modelled from the spec: retain the best k elements of a finite set under
the strict ranking relation bt (bt a b: a ranks strictly better than b). -/
def topSel {α : Type} [DecidableEq α] (bt : α → α → Prop) [DecidableRel bt] (k : ℕ)
    (S : Finset α) : Finset α :=
  S.filter (fun p => (S.filter (fun q => bt q p)).card < k)

theorem topSel_subset {α : Type} [DecidableEq α] (bt : α → α → Prop) [DecidableRel bt]
    (k : ℕ) (S : Finset α) : topSel bt k S ⊆ S :=
  Finset.filter_subset _ _

theorem mem_topSel {α : Type} [DecidableEq α] {bt : α → α → Prop} [DecidableRel bt]
    {k : ℕ} {S : Finset α} {p : α} :
    p ∈ topSel bt k S ↔ p ∈ S ∧ (S.filter (fun q => bt q p)).card < k :=
  Finset.mem_filter

theorem topSel_of_card_le {α : Type} [DecidableEq α] {bt : α → α → Prop}
    [DecidableRel bt] (hirr : ∀ a, ¬ bt a a) {k : ℕ} {S : Finset α}
    (hk : S.card ≤ k) : topSel bt k S = S := by
  refine Finset.filter_true_of_mem ?_
  intro p hp
  have hsub : S.filter (fun q => bt q p) ⊆ S.erase p := by
    intro q hq
    obtain ⟨hqS, hqb⟩ := Finset.mem_filter.mp hq
    refine Finset.mem_erase.mpr ⟨?_, hqS⟩
    intro hqp
    exact hirr p (hqp ▸ hqb)
  have h1 : (S.filter (fun q => bt q p)).card ≤ S.card - 1 := by
    have := Finset.card_le_card hsub
    rwa [Finset.card_erase_of_mem hp] at this
  have h2 : 1 ≤ S.card := Finset.card_pos.mpr ⟨p, hp⟩
  omega

theorem btcount_lt_of_bt {α : Type} [DecidableEq α] {bt : α → α → Prop}
    [DecidableRel bt] (htr : ∀ a b c, bt a b → bt b c → bt a c)
    (hirr : ∀ a, ¬ bt a a) {S : Finset α} {p q : α}
    (hp : p ∈ S) (hq : q ∈ S) (hqp : bt q p) :
    (S.filter (fun r => bt r q)).card < (S.filter (fun r => bt r p)).card := by
  apply Finset.card_lt_card
  rw [Finset.ssubset_iff_of_subset]
  · exact ⟨q, Finset.mem_filter.mpr ⟨hq, hqp⟩,
      fun hm => hirr q (Finset.mem_filter.mp hm).2⟩
  · intro r hr
    obtain ⟨hrS, hrq⟩ := Finset.mem_filter.mp hr
    exact Finset.mem_filter.mpr ⟨hrS, htr r q p hrq hqp⟩

theorem btcount_injOn {α : Type} [DecidableEq α] {bt : α → α → Prop}
    [DecidableRel bt] (htri : ∀ a b, a ≠ b → bt a b ∨ bt b a)
    (htr : ∀ a b c, bt a b → bt b c → bt a c) (hirr : ∀ a, ¬ bt a a)
    (S : Finset α) :
    Set.InjOn (fun p => (S.filter (fun r => bt r p)).card) S := by
  intro p hp q hq hpq
  by_contra hne
  rcases htri p q hne with h | h
  · exact absurd hpq (Nat.ne_of_lt (btcount_lt_of_bt (p := q) (q := p) htr hirr
      (Finset.mem_coe.mp hq) (Finset.mem_coe.mp hp) h))
  · exact absurd hpq (Nat.ne_of_gt (btcount_lt_of_bt (p := p) (q := q) htr hirr
      (Finset.mem_coe.mp hp) (Finset.mem_coe.mp hq) h))

theorem btcount_lt_card {α : Type} [DecidableEq α] {bt : α → α → Prop}
    [DecidableRel bt] (hirr : ∀ a, ¬ bt a a) {S : Finset α} {p : α} (hp : p ∈ S) :
    (S.filter (fun r => bt r p)).card < S.card := by
  have hsub : S.filter (fun r => bt r p) ⊆ S.erase p := by
    intro q hq
    obtain ⟨hqS, hqb⟩ := Finset.mem_filter.mp hq
    refine Finset.mem_erase.mpr ⟨?_, hqS⟩
    intro hqp
    exact hirr p (hqp ▸ hqb)
  have h1 := Finset.card_le_card hsub
  rw [Finset.card_erase_of_mem hp] at h1
  have h2 : 1 ≤ S.card := Finset.card_pos.mpr ⟨p, hp⟩
  omega

theorem btcount_image {α : Type} [DecidableEq α] {bt : α → α → Prop}
    [DecidableRel bt] (htri : ∀ a b, a ≠ b → bt a b ∨ bt b a)
    (htr : ∀ a b c, bt a b → bt b c → bt a c) (hirr : ∀ a, ¬ bt a a)
    (S : Finset α) :
    S.image (fun p => (S.filter (fun r => bt r p)).card) = Finset.range S.card := by
  apply Finset.eq_of_subset_of_card_le
  · intro c hc
    obtain ⟨p, hp, rfl⟩ := Finset.mem_image.mp hc
    exact Finset.mem_range.mpr (btcount_lt_card hirr hp)
  · rw [Finset.card_range, Finset.card_image_of_injOn (btcount_injOn htri htr hirr S)]

theorem card_topSel {α : Type} [DecidableEq α] {bt : α → α → Prop}
    [DecidableRel bt] (htri : ∀ a b, a ≠ b → bt a b ∨ bt b a)
    (htr : ∀ a b c, bt a b → bt b c → bt a c) (hirr : ∀ a, ¬ bt a a)
    (k : ℕ) (S : Finset α) : (topSel bt k S).card = min k S.card := by
  have h1 : topSel bt k S =
      S.filter (fun p => (fun c => c < k) ((fun p => (S.filter (fun r => bt r p)).card) p)) := rfl
  have h2 : (topSel bt k S).card =
      ((S.image (fun p => (S.filter (fun r => bt r p)).card)).filter (fun c => c < k)).card := by
    rw [Finset.filter_image]
    rw [Finset.card_image_of_injOn]
    · rfl
    · exact Set.InjOn.mono (fun p hp => (Finset.mem_filter.mp hp).1)
        (btcount_injOn htri htr hirr S)
  rw [h2, btcount_image htri htr hirr S]
  have h3 : (Finset.range S.card).filter (fun c => c < k) = Finset.range (min k S.card) := by
    ext c
    simp only [Finset.mem_filter, Finset.mem_range, Nat.lt_min]
    exact and_comm
  rw [h3, Finset.card_range]

theorem topSel_union_topSel_left {α : Type} [DecidableEq α] {bt : α → α → Prop}
    [DecidableRel bt] (htri : ∀ a b, a ≠ b → bt a b ∨ bt b a)
    (htr : ∀ a b c, bt a b → bt b c → bt a c) (hirr : ∀ a, ¬ bt a a)
    (k : ℕ) (D C : Finset α) :
    topSel bt k (topSel bt k D ∪ C) = topSel bt k (D ∪ C) := by
  have hTsub : topSel bt k D ∪ C ⊆ D ∪ C := by
    intro q hq
    rcases Finset.mem_union.mp hq with h | h
    · exact Finset.mem_union_left _ (topSel_subset bt k D h)
    · exact Finset.mem_union_right _ h
  apply Finset.Subset.antisymm
  · intro p hp
    obtain ⟨hpT, hpc⟩ := mem_topSel.mp hp
    have hpDC : p ∈ D ∪ C := hTsub hpT
    refine mem_topSel.mpr ⟨hpDC, ?_⟩
    by_contra hk
    push_neg at hk
    have hcardB : k ≤ ((D ∪ C).filter (fun q => bt q p)).card := hk
    have hT'card : (topSel bt k ((D ∪ C).filter (fun q => bt q p))).card = k := by
      rw [card_topSel htri htr hirr]
      omega
    have hsub : topSel bt k ((D ∪ C).filter (fun q => bt q p)) ⊆
        (topSel bt k D ∪ C).filter (fun q => bt q p) := by
      intro q hq
      obtain ⟨hqB, hqcnt⟩ := mem_topSel.mp hq
      obtain ⟨hqDC, hqbt⟩ := Finset.mem_filter.mp hqB
      refine Finset.mem_filter.mpr ⟨?_, hqbt⟩
      rcases Finset.mem_union.mp hqDC with hD | hC
      · refine Finset.mem_union_left _ (mem_topSel.mpr ⟨hD, ?_⟩)
        refine lt_of_le_of_lt (Finset.card_le_card ?_) hqcnt
        intro r hr
        obtain ⟨hrD, hrq⟩ := Finset.mem_filter.mp hr
        refine Finset.mem_filter.mpr ⟨?_, hrq⟩
        exact Finset.mem_filter.mpr ⟨Finset.mem_union_left _ hrD, htr r q p hrq hqbt⟩
      · exact Finset.mem_union_right _ hC
    have hge := Finset.card_le_card hsub
    rw [hT'card] at hge
    omega
  · intro p hp
    obtain ⟨hpDC, hpc⟩ := mem_topSel.mp hp
    have hT : p ∈ topSel bt k D ∪ C := by
      rcases Finset.mem_union.mp hpDC with hD | hC
      · refine Finset.mem_union_left _ (mem_topSel.mpr ⟨hD, ?_⟩)
        refine lt_of_le_of_lt (Finset.card_le_card ?_) hpc
        intro r hr
        obtain ⟨hrD, hrq⟩ := Finset.mem_filter.mp hr
        exact Finset.mem_filter.mpr ⟨Finset.mem_union_left _ hrD, hrq⟩
      · exact Finset.mem_union_right _ hC
    refine mem_topSel.mpr ⟨hT, ?_⟩
    refine lt_of_le_of_lt (Finset.card_le_card ?_) hpc
    intro r hr
    obtain ⟨hrT, hrq⟩ := Finset.mem_filter.mp hr
    exact Finset.mem_filter.mpr ⟨hTsub hrT, hrq⟩

theorem topSel_union_topSel_right {α : Type} [DecidableEq α] {bt : α → α → Prop}
    [DecidableRel bt] (htri : ∀ a b, a ≠ b → bt a b ∨ bt b a)
    (htr : ∀ a b c, bt a b → bt b c → bt a c) (hirr : ∀ a, ¬ bt a a)
    (k : ℕ) (C D : Finset α) :
    topSel bt k (C ∪ topSel bt k D) = topSel bt k (C ∪ D) := by
  rw [Finset.union_comm C, topSel_union_topSel_left htri htr hirr, Finset.union_comm]

/- The TopKProofs provenance: a tag is a set of at most K proofs, each proof a
finite set of input-fact identifiers carrying marginal probabilities. -/

/-- Marginal probability of one proof: product of the probabilities of the
input facts it uses. -/
def pweight (prob : ℕ → ℚ) (p : Finset ℕ) : ℚ := p.prod prob

/-- Ranking order on proofs: strictly larger marginal probability wins, with a
fixed deterministic tie-break (the spec leaves the equal-weight tie-break as a
documented policy choice). -/
def beats (prob : ℕ → ℚ) (p q : Finset ℕ) : Prop :=
  pweight prob q < pweight prob p ∨
    (pweight prob p = pweight prob q ∧ Encodable.encode p < Encodable.encode q)

instance (prob : ℕ → ℚ) : DecidableRel (beats prob) := fun p q => by
  unfold beats
  infer_instance

theorem beats_irrefl (prob : ℕ → ℚ) (p : Finset ℕ) : ¬ beats prob p p := by
  simp [beats]

theorem beats_trans (prob : ℕ → ℚ) (p q r : Finset ℕ)
    (h1 : beats prob p q) (h2 : beats prob q r) : beats prob p r := by
  rcases h1 with h1 | ⟨h1e, h1c⟩ <;> rcases h2 with h2 | ⟨h2e, h2c⟩
  · exact Or.inl (lt_trans h2 h1)
  · exact Or.inl (h2e ▸ h1)
  · exact Or.inl (h1e ▸ h2)
  · exact Or.inr ⟨h1e.trans h2e, lt_trans h1c h2c⟩

theorem beats_total (prob : ℕ → ℚ) (p q : Finset ℕ) (h : p ≠ q) :
    beats prob p q ∨ beats prob q p := by
  rcases lt_trichotomy (pweight prob p) (pweight prob q) with hlt | heq | hgt
  · exact Or.inr (Or.inl hlt)
  · rcases lt_or_gt_of_ne (fun he => h (Encodable.encode_injective he)) with he | he
    · exact Or.inl (Or.inr ⟨heq, he⟩)
    · exact Or.inr (Or.inr ⟨heq.symm, he⟩)
  · exact Or.inl (Or.inl hgt)

/-- Top-k truncation of a proof set under the ranking for prob. -/
def topk (k : ℕ) (prob : ℕ → ℚ) (S : Finset (Finset ℕ)) : Finset (Finset ℕ) :=
  topSel (beats prob) k S

/-- Modelled from the spec: the TopKProofs provenance.  zero is the empty
proof set, one is the single empty proof; combine_add merges two proof sets
and retains the best K; combine_mult forms one candidate proof per pair by
unioning the two operands' identifier sets and retains the best K (the
disjunction toggle of the construction is off, as in the examples). -/
def topKProv (k : ℕ) (prob : ℕ → ℚ) : Prov (Finset (Finset ℕ)) where
  zero := ∅
  one := {∅}
  combine_add := fun A B => topk k prob (A ∪ B)
  combine_mult := fun A B => topk k prob ((A ×ˢ B).image (fun pq => pq.1 ∪ pq.2))

/-- Modelled from the spec: the scalar weight of a TopKProofs tag, computed by
weighted model counting over the retained proof set via inclusion-exclusion
over the distinct input-fact identifiers appearing across the proofs. -/
def tagWeight (prob : ℕ → ℚ) (T : Finset (Finset ℕ)) : ℚ :=
  Finset.sum (T.powerset.filter (fun J => J.Nonempty))
    (fun J => (-1 : ℚ) ^ (J.card + 1) * (J.biUnion id).prod prob)

theorem tagWeight_pair_disjoint (prob : ℕ → ℚ) (p1 p2 : Finset ℕ)
    (hne : p1 ≠ p2) (hd : Disjoint p1 p2) :
    tagWeight prob {p1, p2} =
      pweight prob p1 + pweight prob p2 - pweight prob p1 * pweight prob p2 := by
  classical
  have hnm : p1 ∉ ({p2} : Finset (Finset ℕ)) := by
    simp [hne]
  have hnm2 : p2 ∉ (∅ : Finset (Finset ℕ)) := by
    simp
  rw [tagWeight, Finset.sum_filter]
  rw [Finset.sum_powerset_insert hnm]
  simp only [← insert_emptyc_eq]
  rw [Finset.sum_powerset_insert hnm2, Finset.sum_powerset_insert hnm2]
  rw [Finset.powerset_empty]
  rw [Finset.sum_singleton, Finset.sum_singleton, Finset.sum_singleton,
    Finset.sum_singleton]
  rw [if_neg (by simp), if_pos (Finset.insert_nonempty _ _),
    if_pos (Finset.insert_nonempty _ _), if_pos (Finset.insert_nonempty _ _)]
  have hb1 : ((insert p2 (∅ : Finset (Finset ℕ))).biUnion id).prod prob = pweight prob p2 := by
    rw [Finset.biUnion_insert, Finset.biUnion_empty, Finset.union_empty]
    rfl
  have hb2 : ((insert p1 (∅ : Finset (Finset ℕ))).biUnion id).prod prob = pweight prob p1 := by
    rw [Finset.biUnion_insert, Finset.biUnion_empty, Finset.union_empty]
    rfl
  have hb3 : ((insert p1 (insert p2 (∅ : Finset (Finset ℕ)))).biUnion id).prod prob =
      pweight prob p1 * pweight prob p2 := by
    rw [Finset.biUnion_insert, Finset.biUnion_insert, Finset.biUnion_empty,
      Finset.union_empty]
    exact Finset.prod_union hd
  have hc1 : (insert p2 (∅ : Finset (Finset ℕ))).card = 1 := by simp
  have hc2 : (insert p1 (∅ : Finset (Finset ℕ))).card = 1 := by simp
  have hc3 : (insert p1 (insert p2 (∅ : Finset (Finset ℕ)))).card = 2 := by
    rw [Finset.card_insert_of_not_mem (by simp [hne]),
      Finset.card_insert_of_not_mem (Finset.not_mem_empty _), Finset.card_empty]
  rw [hb1, hb2, hb3, hc1, hc2, hc3]
  ring

/-- Probabilities used by the TopKProofs non-associativity counterexample. -/
def exProb : ℕ → ℚ
  | 1 => 1 / 2
  | 2 => 1 / 10
  | 3 => 9 / 20
  | _ => 1

/-- C5 counterexample: TopKProofs combine_mult is not associative.  With K = 2
and input facts 1, 2, 3 of probabilities one half, one tenth and nine
twentieths, the reachable tags a holding proofs of facts 1 and of fact 2, b
holding the empty proof and a proof of fact 3, and c holding a proof of
fact 2 give different results for (a mult b) mult c and a mult (b mult c):
the top-2 truncation after the first multiplication discards the proof that
becomes the best one once fact 2 is shared. -/
theorem topk_mult_not_assoc_cex :
    (topKProv 2 exProb).combine_mult
        ((topKProv 2 exProb).combine_mult {{1}, {2}} {∅, {3}}) {{2}} ≠
      (topKProv 2 exProb).combine_mult {{1}, {2}}
        ((topKProv 2 exProb).combine_mult {∅, {3}} {{2}}) :=
  of_decide_eq_true (by with_unfolding_all rfl)

/-- C5 (amended): the semiring identity laws hold for every strategy on its
reachable tags, combine_add is commutative and associative for every strategy,
and combine_mult is associative for Unit and MinMaxProb; for TopKProofs
combine_mult is in general not associative (top-K truncation breaks it, see
the counterexample), while all the other listed laws hold.  Reachable tags are
probabilities within zero and one for MinMaxProb and proof sets of size at
most K for TopKProofs. -/
theorem semiring_identity_laws :
    (∀ x y z : Bool,
      unitProv.combine_add unitProv.zero x = x ∧
      unitProv.combine_mult unitProv.one x = x ∧
      unitProv.combine_mult unitProv.zero x = unitProv.zero ∧
      unitProv.combine_add x y = unitProv.combine_add y x ∧
      unitProv.combine_add (unitProv.combine_add x y) z =
        unitProv.combine_add x (unitProv.combine_add y z) ∧
      unitProv.combine_mult (unitProv.combine_mult x y) z =
        unitProv.combine_mult x (unitProv.combine_mult y z)) ∧
    (∀ x y z : ℚ, 0 ≤ x → x ≤ 1 →
      minMaxProv.combine_add minMaxProv.zero x = x ∧
      minMaxProv.combine_mult minMaxProv.one x = x ∧
      minMaxProv.combine_mult minMaxProv.zero x = minMaxProv.zero ∧
      minMaxProv.combine_add x y = minMaxProv.combine_add y x ∧
      minMaxProv.combine_add (minMaxProv.combine_add x y) z =
        minMaxProv.combine_add x (minMaxProv.combine_add y z) ∧
      minMaxProv.combine_mult (minMaxProv.combine_mult x y) z =
        minMaxProv.combine_mult x (minMaxProv.combine_mult y z)) ∧
    (∀ (k : ℕ) (prob : ℕ → ℚ) (x y z : Finset (Finset ℕ)), x.card ≤ k →
      (topKProv k prob).combine_add (topKProv k prob).zero x = x ∧
      (topKProv k prob).combine_mult (topKProv k prob).one x = x ∧
      (topKProv k prob).combine_mult (topKProv k prob).zero x = (topKProv k prob).zero ∧
      (topKProv k prob).combine_add x y = (topKProv k prob).combine_add y x ∧
      (topKProv k prob).combine_add ((topKProv k prob).combine_add x y) z =
        (topKProv k prob).combine_add x ((topKProv k prob).combine_add y z)) := by
  refine ⟨by decide, ?_, ?_⟩
  · intro x y z h0 h1
    refine ⟨max_eq_right h0, min_eq_right h1, min_eq_left h0, max_comm x y,
      max_assoc x y z, min_assoc x y z⟩
  · intro k prob x y z hx
    have hone : ((topKProv k prob).combine_mult {∅} x) = topk k prob x := by
      show topk k prob ((({∅} : Finset (Finset ℕ)) ×ˢ x).image (fun pq => pq.1 ∪ pq.2)) =
        topk k prob x
      congr 1
      ext q
      simp only [Finset.mem_image, Finset.mem_product, Finset.mem_singleton]
      constructor
      · rintro ⟨⟨a, b⟩, ⟨ha, hb⟩, hq⟩
        subst ha
        rw [Finset.empty_union] at hq
        exact hq ▸ hb
      · intro hq
        exact ⟨(∅, q), ⟨rfl, hq⟩, Finset.empty_union q⟩
    refine ⟨?_, ?_, ?_, ?_, ?_⟩
    · show topk k prob (∅ ∪ x) = x
      rw [Finset.empty_union]
      exact topSel_of_card_le (beats_irrefl prob) hx
    · show (topKProv k prob).combine_mult {∅} x = x
      rw [hone]
      exact topSel_of_card_le (beats_irrefl prob) hx
    · show topk k prob (((∅ : Finset (Finset ℕ)) ×ˢ x).image (fun pq => pq.1 ∪ pq.2)) = ∅
      rw [Finset.empty_product, Finset.image_empty]
      rfl
    · show topk k prob (x ∪ y) = topk k prob (y ∪ x)
      rw [Finset.union_comm]
    · show topSel (beats prob) k (topSel (beats prob) k (x ∪ y) ∪ z) =
        topSel (beats prob) k (x ∪ topSel (beats prob) k (y ∪ z))
      rw [topSel_union_topSel_left (beats_total prob) (beats_trans prob)
        (beats_irrefl prob)]
      rw [topSel_union_topSel_right (beats_total prob) (beats_trans prob)
        (beats_irrefl prob)]
      rw [Finset.union_assoc]

theorem semiring_identity_laws_witness :
    minMaxProv.combine_add minMaxProv.zero (1 / 2 : ℚ) = (1 / 2 : ℚ) ∧
    (topKProv 1 (fun _ => 1)).combine_add (topKProv 1 (fun _ => 1)).zero {∅} = {∅} := by
  constructor
  · exact (semiring_identity_laws.2.1 (1 / 2) 0 0 (by norm_num) (by norm_num)).1
  · exact (semiring_identity_laws.2.2 1 (fun _ => 1) {∅} ∅ ∅ (by simp)).1

/- A tag-generic evaluator for the transitive-closure program used by the
probabilistic_reasoning and complex_reasoning examples:
rel path(a, b) = edge(a, b) and rel path(a, c) = path(a, b), edge(b, c). -/

/-- Tag stored under a tuple key, none when the tuple is absent. -/
def lookupTag {Tag : Type} : List ((ℕ × ℕ) × Tag) → (ℕ × ℕ) → Option Tag
  | [], _ => none
  | (u, c) :: rest, t => if u = t then some c else lookupTag rest t

/-- Merge a list of derived facts into a store, one insertFact at a time. -/
def insertAll {Tag : Type} (P : Prov Tag) (s : List ((ℕ × ℕ) × Tag))
    (l : List ((ℕ × ℕ) × Tag)) : List ((ℕ × ℕ) × Tag) :=
  l.foldl (fun st kt => insertFact P st kt.1 kt.2) s

/-- Modelled from the spec: one evaluation round of the transitive-closure
program.  Rule 1 rederives every edge fact into path; rule 2 joins the path
snapshot with the edges, tagging each join with combine_mult; all derivations
are merged into the path total with the combine_add dedup rule. -/
def tcRound {Tag : Type} (P : Prov Tag) (edges path : List ((ℕ × ℕ) × Tag)) :
    List ((ℕ × ℕ) × Tag) :=
  let step2 := path.foldr (fun pf acc =>
    ((edges.filter (fun ef => ef.1.1 == pf.1.2)).map
      (fun ef => ((pf.1.1, ef.1.2), P.combine_mult pf.2 ef.2))) ++ acc) []
  insertAll P path (edges ++ step2)

/-- Modelled from the spec: run the fixpoint loop for a given number of
rounds from the empty path store. -/
def tcRun {Tag : Type} (P : Prov Tag) (edges : List ((ℕ × ℕ) × Tag)) (fuel : ℕ) :
    List ((ℕ × ℕ) × Tag) :=
  (tcRound P edges)^[fuel] []

/-- EDB facts of the probabilistic_reasoning example: edges 0 to 1, 1 to 2,
2 to 3 and 0 to 2 with MinMaxProb input probabilities 0.9, 0.8, 0.7, 0.6. -/
def mmEdges : List ((ℕ × ℕ) × ℚ) :=
  [((0, 1), 9 / 10), ((1, 2), 4 / 5), ((2, 3), 7 / 10), ((0, 2), 3 / 5)]

/-- EDB facts of the complex_reasoning example under TopKProofs (K = 3): each
input fact with identifier i seeds the tag holding the single proof using
exactly fact i. -/
def tkEdges : List ((ℕ × ℕ) × Finset (Finset ℕ)) :=
  [((0, 1), {{0}}), ((1, 2), {{1}}), ((2, 3), {{2}}), ((0, 2), {{3}})]

/-- Input-fact probabilities of the complex_reasoning example: fact 0 is
edge(0,1) with 0.8, fact 1 is edge(1,2) with 0.9, fact 2 is edge(2,3) with
0.7, fact 3 is edge(0,2) with 0.6. -/
def tkProb : ℕ → ℚ
  | 0 => 4 / 5
  | 1 => 9 / 10
  | 2 => 7 / 10
  | 3 => 3 / 5
  | _ => 0

/-- C3: under MinMaxProbProvenance with edges tagged 0.9 (0 to 1), 0.8
(1 to 2), 0.6 (0 to 2) and the transitive-closure rules, the evaluated tag of
path(0, 2) is 0.8, which is exactly max(0.6, min(0.9, 0.8)); the run shown is
at its fixpoint: a further round leaves the store unchanged. -/
theorem minmax_path02 :
    lookupTag (tcRun minMaxProv mmEdges 5) (0, 2) = some (4 / 5) ∧
    (4 : ℚ) / 5 = max (3 / 5) (min (9 / 10) (4 / 5)) ∧
    tcRun minMaxProv mmEdges 6 = tcRun minMaxProv mmEdges 5 :=
  ⟨of_decide_eq_true (by with_unfolding_all rfl),
    of_decide_eq_true (by with_unfolding_all rfl),
    of_decide_eq_true (by with_unfolding_all rfl)⟩

/-- C2: under TopKProofsProvenance, the weight of a tag holding two distinct
proofs over disjoint input-fact identifier sets with marginal probabilities
w1 and w2 is exactly w1 + w2 - w1 * w2 by inclusion-exclusion; and for the
complex_reasoning inputs (edge(0,1) probability 0.8 id 0, edge(1,2)
probability 0.9 id 1, edge(0,2) probability 0.6 id 3) with the
transitive-closure rules, the weight of the evaluated path(0, 2) tag is
0.6 + 0.72 - 0.6 * 0.72 = 0.888, that is 111/125; the run shown is at its
fixpoint. -/
theorem topk_wmc_path02 :
    (∀ (prob : ℕ → ℚ) (p1 p2 : Finset ℕ), p1 ≠ p2 → Disjoint p1 p2 →
      tagWeight prob {p1, p2} =
        pweight prob p1 + pweight prob p2 - pweight prob p1 * pweight prob p2) ∧
    (lookupTag (tcRun (topKProv 3 tkProb) tkEdges 5) (0, 2)).map (tagWeight tkProb) =
      some (111 / 125) ∧
    tcRun (topKProv 3 tkProb) tkEdges 6 = tcRun (topKProv 3 tkProb) tkEdges 5 :=
  ⟨tagWeight_pair_disjoint,
    of_decide_eq_true (by with_unfolding_all rfl),
    of_decide_eq_true (by with_unfolding_all rfl)⟩

theorem topk_wmc_path02_witness :
    tagWeight tkProb {{3}, {0, 1}} =
      pweight tkProb {3} + pweight tkProb {0, 1} -
        pweight tkProb {3} * pweight tkProb {0, 1} :=
  topk_wmc_path02.1 tkProb {3} {0, 1} (by decide) (by decide)

/- The Unit-provenance evaluator of the incremental_evaluation and
basic_datalog examples, as a Finset fixpoint: under Unit tags a tuple's tag is
its presence, so the path store is a finite set of pairs and the
combine_add merge of section 4.4 is set union. -/

/-- Rule-2 join: pairs (a, c) such that path(a, b) and edge(b, c). -/
def compTC (S E : Finset (ℕ × ℕ)) : Finset (ℕ × ℕ) :=
  S.biUnion (fun pq => (E.filter (fun e => e.1 = pq.2)).image (fun e => (pq.1, e.2)))

/-- Modelled from the spec: one evaluation round of the transitive-closure
program under Unit provenance merges into the path total the rule-1
derivations (the edges) and the rule-2 joins. -/
def stepTC (E S : Finset (ℕ × ℕ)) : Finset (ℕ × ℕ) := S ∪ E ∪ compTC S E

/-- The nodes mentioned by a set of pairs. -/
def nodes (E : Finset (ℕ × ℕ)) : Finset ℕ := E.image Prod.fst ∪ E.image Prod.snd

/-- The finite universe of derivable tuples: pairs over the nodes of the EDB
and of the starting store. -/
def univTC (E S : Finset (ℕ × ℕ)) : Finset (ℕ × ℕ) :=
  (nodes E ∪ nodes S) ×ˢ (nodes E ∪ nodes S)

/-- Round bound: the semi-naive loop must reach its fixpoint within one round
per universe tuple, plus one. -/
def fuelTC (E S : Finset (ℕ × ℕ)) : ℕ := (univTC E S).card + 1

/-- Modelled from the spec: run iterates rounds from the persisted store
until the fixpoint, reached within the fuel bound. -/
def runTC (E S : Finset (ℕ × ℕ)) : Finset (ℕ × ℕ) := (stepTC E)^[fuelTC E S] S

/-- A batch-mode run: evaluate from the empty path store. -/
def closTC (E : Finset (ℕ × ℕ)) : Finset (ℕ × ℕ) := runTC E ∅

/-- Modelled from the spec: the incremental controller.  State is (persisted
path total, accumulated EDB); each batch extends the EDB by add_facts and then
runs from the persisted totals. -/
def incRun (bs : List (Finset (ℕ × ℕ))) : Finset (ℕ × ℕ) × Finset (ℕ × ℕ) :=
  bs.foldl (fun st B => (runTC (st.2 ∪ B) st.1, st.2 ∪ B)) (∅, ∅)

/-- Union of all batches. -/
def unionAll (bs : List (Finset (ℕ × ℕ))) : Finset (ℕ × ℕ) :=
  bs.foldl (fun A B => A ∪ B) ∅

/- Generic facts about iterating an inflationary bounded operator on finite
sets: the iteration stabilizes within the universe-cardinality bound. -/

theorem iterate_subset_univ {α : Type} (F : Finset α → Finset α) (U : Finset α)
    (hbnd : ∀ X, X ⊆ U → F X ⊆ U) (S : Finset α) (hS : S ⊆ U) (n : ℕ) :
    F^[n] S ⊆ U := by
  induction n with
  | zero => exact hS
  | succ m ih =>
      rw [Function.iterate_succ_apply']
      exact hbnd _ ih

theorem iterate_stabilizes {α : Type} [DecidableEq α] (F : Finset α → Finset α)
    (U : Finset α) (hinfl : ∀ X, X ⊆ U → X ⊆ F X) (hbnd : ∀ X, X ⊆ U → F X ⊆ U)
    (S : Finset α) (hS : S ⊆ U) :
    ∃ n, n ≤ U.card ∧ F (F^[n] S) = F^[n] S := by
  by_contra hcon
  push_neg at hcon
  have hstrict : ∀ n, n ≤ U.card → F^[n] S ⊂ F (F^[n] S) := by
    intro n hn
    have h1 : F^[n] S ⊆ U := iterate_subset_univ F U hbnd S hS n
    exact ssubset_of_subset_of_ne (hinfl _ h1) (fun he => hcon n hn he.symm)
  have hcard : ∀ n, n ≤ U.card + 1 → n ≤ (F^[n] S).card := by
    intro n
    induction n with
    | zero => exact fun _ => Nat.zero_le _
    | succ m ih =>
        intro hm
        have h1 := ih (by omega)
        have h2 := Finset.card_lt_card (hstrict m (by omega))
        rw [Function.iterate_succ_apply']
        omega
  have h3 := hcard (U.card + 1) (le_refl _)
  have h4 : (F^[U.card + 1] S).card ≤ U.card :=
    Finset.card_le_card (iterate_subset_univ F U hbnd S hS _)
  omega

theorem iterate_fix_at_bound {α : Type} [DecidableEq α] (F : Finset α → Finset α)
    (U : Finset α) (hinfl : ∀ X, X ⊆ U → X ⊆ F X) (hbnd : ∀ X, X ⊆ U → F X ⊆ U)
    (S : Finset α) (hS : S ⊆ U) :
    F (F^[U.card + 1] S) = F^[U.card + 1] S := by
  obtain ⟨n, hn, hfix⟩ := iterate_stabilizes F U hinfl hbnd S hS
  have hrest : F^[U.card + 1] S = F^[n] S := by
    have he : U.card + 1 = (U.card + 1 - n) + n := by omega
    rw [he, Function.iterate_add_apply]
    exact Function.iterate_fixed hfix _
  rw [hrest]
  exact hfix

theorem iterate_subset_of_closed {α : Type} (F : Finset α → Finset α)
    (hmono : ∀ X Y, X ⊆ Y → F X ⊆ F Y) (X S : Finset α) (hX : F X ⊆ X)
    (hS : S ⊆ X) (n : ℕ) : F^[n] S ⊆ X := by
  induction n with
  | zero => exact hS
  | succ m ih =>
      rw [Function.iterate_succ_apply']
      exact (hmono _ _ ih).trans hX

/- The round operator of the Unit evaluator is monotone, inflationary and
bounded by the universe. -/

theorem compTC_mono {S S' E E' : Finset (ℕ × ℕ)} (hS : S ⊆ S') (hE : E ⊆ E') :
    compTC S E ⊆ compTC S' E' := by
  intro x hx
  simp only [compTC, Finset.mem_biUnion, Finset.mem_image, Finset.mem_filter] at hx ⊢
  obtain ⟨pq, hpq, e, ⟨heE, heq⟩, hxe⟩ := hx
  exact ⟨pq, hS hpq, e, ⟨hE heE, heq⟩, hxe⟩

theorem stepTC_mono {E E' S S' : Finset (ℕ × ℕ)} (hE : E ⊆ E') (hS : S ⊆ S') :
    stepTC E S ⊆ stepTC E' S' :=
  Finset.union_subset_union (Finset.union_subset_union hS hE) (compTC_mono hS hE)

theorem subset_stepTC (E S : Finset (ℕ × ℕ)) : S ⊆ stepTC E S :=
  Finset.subset_union_left.trans Finset.subset_union_left

theorem mem_nodes_of_mem {E : Finset (ℕ × ℕ)} {x : ℕ × ℕ} (hx : x ∈ E) :
    x.1 ∈ nodes E ∧ x.2 ∈ nodes E :=
  ⟨Finset.mem_union_left _ (Finset.mem_image_of_mem Prod.fst hx),
    Finset.mem_union_right _ (Finset.mem_image_of_mem Prod.snd hx)⟩

theorem subset_univTC (E S : Finset (ℕ × ℕ)) : S ⊆ univTC E S := by
  intro x hx
  obtain ⟨h1, h2⟩ := mem_nodes_of_mem hx
  exact Finset.mem_product.mpr
    ⟨Finset.mem_union_right _ h1, Finset.mem_union_right _ h2⟩

theorem stepTC_subset_univ (E T S : Finset (ℕ × ℕ)) (hS : S ⊆ univTC E T) :
    stepTC E S ⊆ univTC E T := by
  intro x hx
  rcases Finset.mem_union.mp hx with hx1 | hxc
  · rcases Finset.mem_union.mp hx1 with hxS | hxE
    · exact hS hxS
    · obtain ⟨h1, h2⟩ := mem_nodes_of_mem hxE
      exact Finset.mem_product.mpr
        ⟨Finset.mem_union_left _ h1, Finset.mem_union_left _ h2⟩
  · simp only [compTC, Finset.mem_biUnion, Finset.mem_image, Finset.mem_filter] at hxc
    obtain ⟨pq, hpq, e, ⟨heE, heq⟩, hxe⟩ := hxc
    have hpq1 : pq.1 ∈ nodes E ∪ nodes T := (Finset.mem_product.mp (hS hpq)).1
    have he2 : e.2 ∈ nodes E := (mem_nodes_of_mem heE).2
    subst hxe
    exact Finset.mem_product.mpr ⟨hpq1, Finset.mem_union_left _ he2⟩

theorem runTC_fixed (E S : Finset (ℕ × ℕ)) : stepTC E (runTC E S) = runTC E S :=
  iterate_fix_at_bound (stepTC E) (univTC E S)
    (fun X _ => subset_stepTC E X) (stepTC_subset_univ E S)
    S (subset_univTC E S)

theorem stepTC_runTC_subset (E S : Finset (ℕ × ℕ)) :
    stepTC E (runTC E S) ⊆ runTC E S := by
  intro x hx
  rwa [runTC_fixed E S] at hx

theorem runTC_subset_of_closed (E X S : Finset (ℕ × ℕ)) (hX : stepTC E X ⊆ X)
    (hS : S ⊆ X) : runTC E S ⊆ X :=
  iterate_subset_of_closed (stepTC E)
    (fun _ _ h => stepTC_mono (Finset.Subset.refl E) h) X S hX hS _

theorem closTC_mono {E E' : Finset (ℕ × ℕ)} (h : E ⊆ E') : closTC E ⊆ closTC E' :=
  iterate_subset_of_closed (stepTC E)
    (fun _ _ hAB => stepTC_mono (Finset.Subset.refl E) hAB) (closTC E') ∅
    ((stepTC_mono h (Finset.Subset.refl _)).trans (stepTC_runTC_subset E' ∅))
    (Finset.empty_subset _) _

theorem runTC_eq_closTC (E T : Finset (ℕ × ℕ)) (hT : T ⊆ closTC E) :
    runTC E T = closTC E := by
  apply Finset.Subset.antisymm
  · exact runTC_subset_of_closed E (closTC E) T (stepTC_runTC_subset E ∅) hT
  · exact iterate_subset_of_closed (stepTC E)
      (fun _ _ h => stepTC_mono (Finset.Subset.refl E) h) (runTC E T) ∅
      (stepTC_runTC_subset E T) (Finset.empty_subset _) _

theorem closTC_empty : closTC ∅ = ∅ := by
  have h : stepTC ∅ ∅ = ∅ := by
    simp [stepTC, compTC]
  exact Function.iterate_fixed h _

theorem incRun_eq (bs : List (Finset (ℕ × ℕ))) :
    incRun bs = (closTC (unionAll bs), unionAll bs) := by
  induction bs using List.reverseRecOn with
  | nil =>
      simp [incRun, unionAll, closTC_empty]
  | append_singleton xs B ih =>
      have h1 : incRun (xs ++ [B]) =
          (runTC ((incRun xs).2 ∪ B) (incRun xs).1, (incRun xs).2 ∪ B) := by
        simp [incRun, List.foldl_append]
      have h2 : unionAll (xs ++ [B]) = unionAll xs ∪ B := by
        simp [unionAll, List.foldl_append]
      rw [h1, h2, ih]
      have h3 : closTC (unionAll xs) ⊆ closTC (unionAll xs ∪ B) :=
        closTC_mono Finset.subset_union_left
      rw [runTC_eq_closTC (unionAll xs ∪ B) (closTC (unionAll xs)) h3]

/-- C1: for every EDB fact set partitioned into an ordered sequence of
batches, the incremental-mode interleaving of add_facts and run per batch
yields exactly the same final path relation contents as a single batch run
over the union of all batches (Unit provenance, as in the
incremental_evaluation example: a tuple's tag is its presence, so equal sets
carry equal tags). -/
theorem incremental_batch_equiv (bs : List (Finset (ℕ × ℕ))) :
    (incRun bs).1 = closTC (unionAll bs) := by
  rw [incRun_eq bs]

/-- C8: for every finite edge set and starting store, the run terminates at a
fixpoint: a round with an unchanged store (empty delta) is reached within the
fuel bound, and executing one additional round after the run changes
nothing. -/
theorem fixpoint_termination (E S : Finset (ℕ × ℕ)) :
    stepTC E (runTC E S) = runTC E S ∧
    ∃ n, n ≤ fuelTC E S ∧ (stepTC E)^[n + 1] S = (stepTC E)^[n] S := by
  refine ⟨runTC_fixed E S, ?_⟩
  obtain ⟨n, hn, hfix⟩ := iterate_stabilizes (stepTC E) (univTC E S)
    (fun X _ => subset_stepTC E X) (stepTC_subset_univ E S) S (subset_univTC E S)
  refine ⟨n, by simp [fuelTC]; omega, ?_⟩
  rw [Function.iterate_succ_apply']
  exact hfix

end ScallopModel
